import Mathlib

/-!
# Verification of the `@metalsmith/permalinks` (v2.3.0) permalink engine

This file gives a shallow embedding, in Lean 4, of `src/lib/index.js` of the
repository: the pattern resolver, path-fallback resolver, family locators,
linkset selection and merging, the default uniqueness resolver, the relinker,
and the orchestrating plugin function, together with theorems settling the
frozen claims about that code.

Strings are modelled as Lean `String`s (lists of characters); the Node.js
`path.posix` functions used by the source (`dirname`, `extname`, `basename`,
`join`) are modelled faithfully on character lists, including their handling
of trailing slashes and of `.`/`..` segments during join-normalization.
JavaScript objects that serve as string-keyed dictionaries (the Metalsmith
file set, the family maps, `dupes`, `moved`) are modelled as association
lists in insertion order, with JavaScript's object-key semantics: assignment
to an existing key updates in place, assignment to a fresh key appends, and
`delete` removes the entry.
-/

set_option autoImplicit false

namespace Permalinks

/-! ## Character-list utilities -/

/-- Split a character list on `'/'`.  The result is always nonempty;
splitting the empty list yields one empty segment, like JavaScript's
`''.split('/')`. -/
def csplit : List Char → List (List Char)
  | [] => [[]]
  | c :: cs =>
    if c = '/' then [] :: csplit cs
    else (c :: (csplit cs).headD []) :: (csplit cs).tail

/-- Join segments with `'/'` (inverse of `csplit`). -/
def cjoin : List (List Char) → List Char
  | [] => []
  | [s] => s
  | s :: ss => s ++ '/' :: cjoin ss

/-- Split a character list at the *last* occurrence of `sep`:
`splitLastC sep l = some (pre, post)` when `l = pre ++ sep :: post` and
`post` contains no `sep`; `none` when `sep` does not occur. -/
def splitLastC (sep : Char) : List Char → Option (List Char × List Char)
  | [] => none
  | c :: cs =>
    match splitLastC sep cs with
    | some (pre, post) => some (c :: pre, post)
    | none => if c = sep then some ([], cs) else none

/-- Remove the maximal run of trailing `'/'` characters. -/
def dropTrailingSlashes (l : List Char) : List Char :=
  (l.reverse.dropWhile (fun c => c = '/')).reverse

/-- Index of the first occurrence of `needle` in `haystack` (leftmost match),
`none` if absent.  The empty needle matches at index 0, as in JavaScript's
`String.prototype.indexOf`. -/
def firstMatch (needle : List Char) : List Char → Option Nat
  | [] => if needle = [] then some 0 else none
  | c :: cs =>
    if needle.isPrefixOf (c :: cs) then some 0
    else (firstMatch needle cs).map (· + 1)

/-- Replace the *first* occurrence of `needle` by `repl` — the semantics of
JavaScript's `String.prototype.replace` with a string pattern (only the first
match is replaced; `$`-substitution patterns in the replacement are not
modelled, the paths involved never contain `$`). -/
def replaceFirstL (h needle repl : List Char) : List Char :=
  match firstMatch needle h with
  | none => h
  | some i => h.take i ++ repl ++ h.drop (i + needle.length)

/-- `String` wrapper for `replaceFirstL`. -/
def replaceFirst (s needle repl : String) : String :=
  ⟨replaceFirstL s.data needle.data repl.data⟩

/-! ## Node.js `path.posix` model -/

/-- One normalized path segment: nonempty and not `.` or `..`. -/
def normalSeg (s : List Char) : Bool :=
  decide (s ≠ [] ∧ s ≠ ['.'] ∧ s ≠ ['.', '.'])

/-- One step of Node's `normalizeString` segment processing: skip `.`,
resolve `..` against the accumulated stack (keeping leading `..`s only when
`allowUp` is set, i.e. for relative paths), push anything else. -/
def normStep (allowUp : Bool) (st : List (List Char)) (seg : List Char) :
    List (List Char) :=
  if seg = ['.'] then st
  else if seg = ['.', '.'] then
    if st ≠ [] ∧ st.getLast? ≠ some ['.', '.'] then st.dropLast
    else if allowUp then st ++ [seg] else st
  else st ++ [seg]

/-- Node's `normalizeString`: resolve `.`/`..` and collapse empty segments. -/
def normSegs (allowUp : Bool) (segs : List (List Char)) : List (List Char) :=
  segs.foldl (normStep allowUp) []

/-- Node's `path.posix.normalize`. -/
def pnormalize (p : String) : String :=
  let l := p.data
  if l = [] then "."
  else
    let isAbs := l.head? = some '/'
    let trail := l.getLast? = some '/'
    let segs := (csplit l).filter (fun s => s ≠ [])
    let core := cjoin (normSegs (!isAbs) segs)
    if core = [] then
      if isAbs then "/" else if trail then "./" else "."
    else
      ⟨(if isAbs then '/' :: core else core) ++ (if trail then ['/'] else [])⟩

/-- Intercalate `'/'` between strings. -/
def slashIntercalate (parts : List String) : String :=
  ⟨cjoin (parts.map String.data)⟩

/-- Node's `path.posix.join`: drop empty arguments, join with `'/'`, then
normalize; with nothing left, the result is `"."`. -/
def pjoin (parts : List String) : String :=
  match parts.filter (fun s => s.data ≠ []) with
  | [] => "."
  | ne => pnormalize (slashIntercalate ne)

/-- Node's `path.posix.dirname`: everything before the last `'/'` that is
followed by a non-slash character; `"."` when there is no such slash (and the
path does not start at the root). -/
def dirname (p : String) : String :=
  if p.data = [] then "."
  else
    match splitLastC '/' (dropTrailingSlashes p.data) with
    | none => if p.data.head? = some '/' then "/" else "."
    | some (pre, _) =>
      if pre = [] then if p.data.head? = some '/' then "/" else "."
      else if p.data.head? = some '/' ∧ pre.length = 1 then "//"
      else ⟨pre⟩

/-- The basename region of a path: the part after the last `'/'`, with
trailing slashes ignored. -/
def baseRegion (p : String) : List Char :=
  let t := dropTrailingSlashes p.data
  match splitLastC '/' t with
  | some (_, post) => post
  | none => t

/-- Node's `path.posix.extname`: the substring of the basename from its last
`'.'`, except that a basename with no dot, a basename whose only dot is its
first character (dotfiles), and the basename `".."` have no extension. -/
def extname (p : String) : String :=
  let bn := baseRegion p
  if bn = ['.', '.'] then ""
  else
    match splitLastC '.' bn with
    | none => ""
    | some ([], _) => ""
    | some (_, post) => ⟨'.' :: post⟩

/-- Node's `path.posix.basename(p, ext)`: the basename region, with the
suffix `ext` stripped when it is a proper suffix of the basename (Node keeps
the basename intact when it is exactly equal to `ext`). -/
def basenameExt (p ext : String) : String :=
  let bn := baseRegion p
  if ext.data ≠ [] ∧ ext.data ≠ bn ∧ ext.data.reverse.isPrefixOf bn.reverse then
    ⟨bn.take (bn.length - ext.data.length)⟩
  else ⟨bn⟩

/-- The source's `html` helper: `path.extname(str) === '.html'`. -/
def htmlB (p : String) : Bool := extname p = ".html"

/-- `str.replace(/\\/g, '/')`: map every backslash to a forward slash. -/
def backslashToSlash (s : String) : String :=
  ⟨s.data.map (fun c => if c = '\\' then '/' else c)⟩

end Permalinks

namespace Permalinks

/-! ## Data model

Metalsmith documents are JavaScript objects: a `contents` buffer plus
arbitrary named metadata fields.  The metadata values the engine inspects are
strings, `Date`s, arrays and booleans; a `Date` is represented by its
timestamp, and its formatting is delegated to the configured formatter (the
`moment` library is external to the source and is abstracted as a
formatter function parameter). -/

/-- A JavaScript metadata value, as far as the engine inspects it. -/
inductive FieldVal where
  | str (s : String)
  | date (t : Int)
  | list (xs : List String)
  | bool (b : Bool)
  deriving DecidableEq, Repr

/-- JavaScript truthiness of a metadata value (`!val` in `replace`):
the empty string and `false` are falsy; `Date` objects and arrays — even
empty arrays — are truthy. -/
def truthyF : FieldVal → Bool
  | .str s => s.data ≠ []
  | .date _ => true
  | .list _ => true
  | .bool b => b

/-- JavaScript `String(val)` for the values above (array `toString` joins
elements with commas).  `Date` stringification is never exercised by the
source: dates are routed to the date formatter before stringification. -/
def valToString : FieldVal → String
  | .str s => s
  | .date _ => ""
  | .list xs => String.intercalate "," xs
  | .bool b => if b then "true" else "false"

/-- A document: its `contents` payload and its metadata properties
(including `permalink` and the `path` the engine writes), as an
insertion-ordered association list, like a JavaScript object. -/
structure Doc where
  contents : String
  meta : List (String × FieldVal)
  deriving DecidableEq, Repr

/-- The Metalsmith file set: current path ↦ document, in insertion order. -/
abbrev Files := List (String × Doc)

/-- Property lookup on a string-keyed JavaScript object. -/
def lookupKV {α : Type} (l : List (String × α)) (k : String) : Option α :=
  (l.find? (fun kv => kv.1 = k)).map (·.2)

/-- Property assignment on a string-keyed JavaScript object: update in place
if the key exists, append otherwise. -/
def setKV {α : Type} (l : List (String × α)) (k : String) (v : α) :
    List (String × α) :=
  if (l.find? (fun kv => kv.1 = k)).isSome then
    l.map (fun kv => if kv.1 = k then (k, v) else kv)
  else l ++ [(k, v)]

/-- `delete obj[k]`. -/
def delKV {α : Type} (l : List (String × α)) (k : String) : List (String × α) :=
  l.filter (fun kv => kv.1 ≠ k)

/-- The keys of a string-keyed object, in iteration order. -/
def keysOf {α : Type} (l : List (String × α)) : List String := l.map (·.1)

/-- `data[key]` on a document. -/
def metaLookup (d : Doc) (k : String) : Option FieldVal := lookupKV d.meta k

/-- `data[key] = v` on a document. -/
def metaSet (d : Doc) (k : String) (v : FieldVal) : Doc :=
  { d with meta := setKV d.meta k v }

/-! ## Configuration model

A `Linkset`/options object.  Every field is an `Option`: `none` models the
absence of the own property, which is what `Object.assign` merging is
sensitive to.  (An own property explicitly set to `undefined` — which
`Object.assign` would also copy — is not distinguished from an absent one;
no realistic configuration sets a field to `undefined`.) -/

/-- The `relative` policy values the source distinguishes: `true`,
`'folder'`, and anything else (`false` or an unrecognized string), which the
`switch` treats as "no family". -/
inductive RelVal where
  | vtrue
  | vfolder
  | vfalse
  deriving DecidableEq, Repr

/-- The `slug` option: a custom function, or an option bag for the external
`slugify` library (whose contents are not inspected by the engine itself). -/
inductive SlugVal where
  | sfn (f : String → String)
  | sopts

/-- The `unique` option: a boolean, or a custom resolver function.  The
source passes a custom resolver `(targetPath, filesObj, filename, opts)`; the
`opts` argument is not modelled (custom resolvers are not exercised by any
claim). -/
inductive UniqueVal where
  | ubool (b : Bool)
  | ufn (f : String → Files → String → String)

/-- A linkset object (also the shape `Object.assign` produces at the
per-document merge).  `lsMatch` is the `match` property. -/
structure LSObj where
  lsMatch : Option (List (String × FieldVal)) := none
  pattern : Option String := none
  dateF : Option (Int → String) := none
  slug : Option SlugVal := none
  relative : Option RelVal := none
  isDefault : Option Bool := none
  unique : Option UniqueVal := none
  duplicatesFail : Option Bool := none
  indexFile : Option String := none

/-- `Object.assign({}, a, b)`: `b`'s own properties override `a`'s. -/
def LSObj.assign (a b : LSObj) : LSObj where
  lsMatch := b.lsMatch.orElse fun _ => a.lsMatch
  pattern := b.pattern.orElse fun _ => a.pattern
  dateF := b.dateF.orElse fun _ => a.dateF
  slug := b.slug.orElse fun _ => a.slug
  relative := b.relative.orElse fun _ => a.relative
  isDefault := b.isDefault.orElse fun _ => a.isDefault
  unique := b.unique.orElse fun _ => a.unique
  duplicatesFail := b.duplicatesFail.orElse fun _ => a.duplicatesFail
  indexFile := b.indexFile.orElse fun _ => a.indexFile

/-- The user-supplied options object, before `normalize` (the string
shorthand `permalinks(':pattern')` corresponds to `pattern := some _`). -/
structure RawOptions where
  pattern : Option String := none
  dateStr : Option String := none
  dateIsFn : Bool := false
  slug : Option SlugVal := none
  relative : Option RelVal := none
  linksets : Option (List LSObj) := none
  unique : Option UniqueVal := none
  duplicatesFail : Option Bool := none
  indexFile : Option String := none

/-- The options object after `normalize`: `date` is always a formatter
function (a user-supplied string is compiled with `moment`'s `format`;
anything else — including a user-supplied function — is replaced by the
default `'YYYY/MM/DD'` formatter), `relative` defaults to `true`, and
`linksets` defaults to `[]`.  The `Option` fields record whether the
property was an own property of the object, which matters for the
`Object.assign` merge. -/
structure Config where
  pattern : Option String := none
  dateF : Int → String
  slug : Option SlugVal := none
  relative : RelVal := .vtrue
  linksets : List LSObj := []
  unique : Option UniqueVal := none
  duplicatesFail : Option Bool := none
  indexFile : Option String := none

/-- The source's `normalize`, parameterized by the external `moment`
formatter factory `mf` (format string ↦ formatter). -/
def normalize (mf : String → Int → String) (o : RawOptions) : Config where
  pattern := o.pattern
  dateF := match o.dateStr with
    | some s => mf s
    | none => mf "YYYY/MM/DD"
  slug := o.slug
  relative := o.relative.getD .vtrue
  linksets := o.linksets.getD []
  unique := o.unique
  duplicatesFail := o.duplicatesFail
  indexFile := o.indexFile

/-- The normalized options, viewed as the plain object that
`defaultLinkset = options` and `Object.assign(…, defaultLinkset)` use:
`date`, `relative` (and `linksets`) are always own properties after
`normalize`; `pattern`, `slug`, `unique`, `duplicatesFail`, `indexFile` are
own properties only when the user supplied them. -/
def Config.toObj (cfg : Config) : LSObj where
  lsMatch := none
  pattern := cfg.pattern
  dateF := some cfg.dateF
  slug := cfg.slug
  relative := some cfg.relative
  isDefault := none
  unique := cfg.unique
  duplicatesFail := cfg.duplicatesFail
  indexFile := cfg.indexFile

end Permalinks

namespace Permalinks

/-! ## The engine's pure helpers -/

/-- Modelled from the spec: the default slug transform supplied by the
external `slugify` library (not part of `src/`), per §4.1/§8 of the spec —
lower-case, spaces replaced by hyphens.  Option bags for `slugify` are not
interpreted beyond this default. -/
def slugDefault (s : String) : String :=
  ⟨s.data.map (fun c => if c = ' ' then '-' else c.toLower)⟩

/-- The source's `slug` wrapper / the `typeof options.slug === 'function'`
dispatch in `replace`: a custom function replaces the slugifier entirely;
otherwise the default slug transform is applied. -/
def slugApply (sv : Option SlugVal) (s : String) : String :=
  match sv with
  | some (.sfn f) => f s
  | _ => slugDefault s

/-- `\w` of JavaScript regexes: ASCII letters, digits and underscore. -/
def isWordChar (c : Char) : Bool :=
  ('a' ≤ c ∧ c ≤ 'z') ∨ ('A' ≤ c ∧ c ≤ 'Z') ∨ ('0' ≤ c ∧ c ≤ '9') ∨ c = '_'

/-- A lexed piece of a permalink pattern: literal text, or a `:identifier`
placeholder (`par w` stands for the token `:w`). -/
inductive Chunk where
  | lit (s : List Char)
  | par (w : List Char)
  deriving DecidableEq, Repr

/-- Fuel-indexed pattern lexer (structural recursion on the fuel; one unit
of fuel is spent per emitted chunk, and every chunk consumes at least one
character, so fuel equal to the input length always suffices). -/
def lexPatternF : Nat → List Char → List Chunk
  | 0, _ => []
  | _, [] => []
  | fuel + 1, c :: cs =>
    if c = ':' then
      let w := cs.takeWhile isWordChar
      if w = [] then .lit [':'] :: lexPatternF fuel cs
      else .par w :: lexPatternF fuel (cs.dropWhile isWordChar)
    else .lit [c] :: lexPatternF fuel cs

/-- Lex a pattern according to the token syntax `/:(\w+)/g` used by the
source's `params` (and by the external `substitute` package): a colon
followed by at least one word character starts a placeholder, whose name is
the maximal run of word characters. -/
def lexPattern (l : List Char) : List Chunk :=
  lexPatternF l.length l

/-- The source's `params`: the placeholder names of a pattern, in order. -/
def params (pattern : String) : List String :=
  (lexPattern pattern.data).filterMap fun
    | .par w => some ⟨w⟩
    | .lit _ => none

/-- Modelled from the spec: the external `substitute` package (not part of
`src/`), per §4.2 — each `:identifier` token is replaced by the value
resolved for that identifier; tokens without a resolved value are left
as-is (the caller always resolves every token first). -/
def substituteS (pattern : String) (ret : List (String × String)) : String :=
  ⟨(lexPattern pattern.data).foldr
    (fun ch acc =>
      match ch with
      | .lit s => s ++ acc
      | .par w =>
        match lookupKV ret ⟨w⟩ with
        | some v => v.data ++ acc
        | none => ':' :: w ++ acc)
    []⟩

/-- The outcome of a JavaScript computation that can throw: `ok` is a
normal return, `thrown` an uncaught exception (a `TypeError`) that aborts
the whole plugin invocation. -/
inductive JSRes (α : Type) where
  | ok (a : α)
  | thrown
  deriving DecidableEq, Repr

/-- The loop body of the source's `replace`: resolve each placeholder in
turn against the document's data, failing (null) on a falsy value (absent
field, empty string, `false`) or an empty array; `Date` values go through
the configured date formatter, everything else is stringified and slugged.
When the merged linkset carries no `date` formatter (reachable when a
user-supplied `isDefault` linkset omits `date`, since the merge never
installs the global default there), `ret[key] = options.date(val)` throws
a `TypeError` — modelled as `thrown`. -/
def replaceGo (p : String) (data : Doc) (ls : LSObj) :
    List String → List (String × String) → JSRes (Option String)
  | [], ret => .ok (some (substituteS p ret))
  | k :: ks, ret =>
    match metaLookup data k with
    | none => .ok none
    | some v =>
      if ¬ truthyF v then .ok none
      else if v = .list [] then .ok none
      else
        match v with
        | .date t =>
          match ls.dateF with
          | none => .thrown
          | some df => replaceGo p data ls ks (ret ++ [(k, df t)])
        | _ => replaceGo p data ls ks (ret ++ [(k, slugApply ls.slug (valToString v))])

/-- The source's `replace(pattern, data, options)`: `null` for a missing or
empty pattern, `null` when some placeholder cannot be resolved, the
substituted pattern otherwise — or an uncaught `TypeError` from the
placeholder loop. -/
def replace (pattern : Option String) (data : Doc) (ls : LSObj) :
    JSRes (Option String) :=
  match pattern with
  | none => .ok none
  | some p =>
    if p.data = [] then .ok none
    else replaceGo p data ls (params p) []

/-- The source's `resolve`: the path-derived fallback permalink.  The
basename with its extension stripped is dropped when it is `index`;
otherwise it is joined onto the dirname (and backslashes are normalized,
a no-op on posix paths). -/
def resolve (str : String) : String :=
  let base := basenameExt str (extname str)
  let ret := dirname str
  if base ≠ "index" then backslashToSlash (pjoin [ret, base])
  else ret

/-- The directory prefix used by `family`/`folder`: `path.dirname`, with
`'.'` replaced by the empty string. -/
def famDir (file : String) : String :=
  let d := dirname file
  if d = "." then "" else d

/-- The source's `family`: every entry of the file set other than the file
itself whose key starts with the literal string `dirname(file)` (a plain
`indexOf(dir) === 0` prefix check) and is not HTML, keyed by the key with
that prefix sliced off. -/
def family (file : String) (files : Files) : Files :=
  let dir := famDir file
  files.filterMap fun kv =>
    if kv.1 = file then none
    else if ¬ dir.data.isPrefixOf kv.1.data then none
    else if htmlB kv.1 then none
    else some (⟨kv.1.data.drop dir.data.length⟩, kv.2)

/-- The source's `folder`: every non-HTML entry located under the sibling
directory named after the file's basename (`path.join(dir, bn, '/')` as a
prefix), keyed by the remainder. -/
def folder (file : String) (files : Files) : Files :=
  let bn := basenameExt file (extname file)
  let dir := famDir file
  let sharedPath := pjoin [dir, bn, "/"]
  files.filterMap fun kv =>
    if kv.1 = file then none
    else if ¬ sharedPath.data.isPrefixOf kv.1.data then none
    else if htmlB kv.1 then none
    else some (⟨kv.1.data.drop sharedPath.data.length⟩, kv.2)

/-- The source's `relink`: for each entry of `moved` (an object whose keys
are iterated in insertion order), the *value* is replaced by the *key* in
the contents — `content.replace(from, to)` with `to` the key and
`from = moved[to]` the value, replacing only the first occurrence. -/
def relinkStr (contents : String) (moved : List (String × String)) : String :=
  moved.foldl (fun c kv => replaceFirst c kv.2 kv.1) contents

/-! ## Linkset selection and merging -/

/-- JavaScript `===` on metadata values: strings and booleans compare by
value; `Date` objects and arrays compare by reference, and a configuration
literal is never the same object as a document field, so those compare
unequal. -/
def jsStrictEq : FieldVal → FieldVal → Bool
  | .str a, .str b => a = b
  | .bool a, .bool b => a = b
  | _, _ => false

/-- One conjunct of the source's `findLinkset` reduce: strict equality, or —
when the field is truthy and has an `indexOf` method (strings and arrays) —
containment (`includes`): substring containment for strings, element
membership for arrays. -/
def fieldMatches (fv : Option FieldVal) (mv : FieldVal) : Bool :=
  match fv with
  | none => false
  | some v =>
    if jsStrictEq v mv then true
    else
      match v with
      | .str a => truthyF (.str a) ∧ (firstMatch (valToString mv).data a.data).isSome
      | .list xs => (match mv with | .str m => m ∈ xs | _ => false)
      | _ => false

/-- Whether a linkset's `match` conditions all hold for a document. -/
def lsMatches (ls : LSObj) (data : Doc) : Bool :=
  (ls.lsMatch.getD []).all fun km => fieldMatches (metaLookup data km.1) km.2

/-- `linksets.find(ls => Boolean(ls.isDefault)) || options` — the default
linkset of a configuration. -/
def defaultLS (cfg : Config) : LSObj :=
  (cfg.linksets.find? (fun ls => ls.isDefault = some true)).getD cfg.toObj

/-- The source's `findLinkset`: the first linkset whose `match` conditions
all hold, else the default linkset. -/
def findLinkset (cfg : Config) (data : Doc) : LSObj :=
  (cfg.linksets.find? (fun ls => lsMatches ls data)).getD (defaultLS cfg)

/-- Line 323 of the source:
`Object.assign({}, findLinkset(data), defaultLinkset)` — the effective
per-document configuration. -/
def effectiveLinkset (cfg : Config) (data : Doc) : LSObj :=
  LSObj.assign (findLinkset cfg data) (defaultLS cfg)

/-- Line 326 of the source:
`replace(linkset.pattern, data, linkset) || resolve(file)` — the candidate
permalink before the `permalink` override and uniqueness resolution.  A
falsy `replace` result (`null`, or the empty string) falls back to the
path-derived permalink; a thrown `TypeError` propagates. -/
def candidatePath (ls : LSObj) (data : Doc) (file : String) : JSRes String :=
  match replace ls.pattern data ls with
  | .thrown => .thrown
  | .ok none => .ok (resolve file)
  | .ok (some s) => .ok (if s.data = [] then resolve file else s)

/-! ## The default uniqueness resolver -/

/-- Truthiness of `options.duplicatesFail`. -/
def dupFailB (cfg : Config) : Bool := cfg.duplicatesFail.getD false

/-- Truthiness of `options.unique` (a function value is truthy, but then the
default resolver is not used at all). -/
def uniqueTruthy (cfg : Config) : Bool :=
  match cfg.unique with
  | none => false
  | some (.ubool b) => b
  | some (.ufn _) => true

/-- `opts.indexFile || 'index.html'`. -/
def effIndexFile (cfg : Config) : String :=
  match cfg.indexFile with
  | some s => if s.data = [] then "index.html" else s
  | none => "index.html"

/-- The numeric disambiguation suffix used at loop iteration `n` of
`defaultUniquePath` (`''` on the first iteration, then `-1`, `-2`, …). -/
def sfxStr (n : Nat) : String :=
  if n = 0 then "" else "-" ++ toString n

/-- The candidate target of iteration `n`:
``path.join(`${targetPath}${postfix}`, indexFile || 'index.html')``. -/
def targetAt (cfg : Config) (targetPath : String) (n : Nat) : String :=
  pjoin [targetPath ++ sfxStr n, effIndexFile cfg]

/-- The do/while loop of the source's `defaultUniquePath`, with explicit
fuel: `none` models non-termination (the JavaScript loop spins forever when
`unique` is truthy and every candidate is occupied — unreachable for a
finite file set with sufficient fuel), `some (.error msg)` models the
`return done(msg)` early exit taken when `duplicatesFail` is set and the
candidate is occupied, and `some (.ok target)` is the normal return. -/
def dupLoop (cfg : Config) (targetPath : String) (files : Files)
    (counter : Nat) : Nat → Option (Except String String)
  | 0 => none
  | fuel + 1 =>
    let target := targetAt cfg targetPath counter
    if dupFailB cfg ∧ (lookupKV files target).isSome then
      some (.error ("Permalinks: Clash with another target file " ++ target))
    else if uniqueTruthy cfg ∧ (lookupKV files target).isSome then
      dupLoop cfg targetPath files (counter + 1) fuel
    else some (.ok target)

/-- `makeUnique`: a user-supplied `unique` function replaces the default
resolver entirely; otherwise `defaultUniquePath` runs (with fuel one larger
than the file set, enough for the loop to find a free candidate whenever the
JavaScript loop terminates). -/
def makeUnique (cfg : Config) (targetPath : String) (files : Files)
    (filename : String) : Option (Except String String) :=
  match cfg.unique with
  | some (.ufn f) => some (.ok (f targetPath files filename))
  | _ => dupLoop cfg targetPath files 0 (files.length + 1)

/-! ## The plugin (orchestrator) -/

/-- Observable events of a run, in execution order: `skipEv` for a document
that does not enter the pipeline, `stage rel` for `dupes[rel] = fam[key]`,
`commit src out` for `delete files[src]; files[out] = data`, and
`mergeEv key` for the post-loop `files[key] = dupes[key]`. -/
inductive Ev where
  | skipEv (src : String)
  | stage (rel : String)
  | commit (src out : String)
  | mergeEv (key : String)
  deriving DecidableEq, Repr

/-- The mutable state of one plugin invocation: the file set, the `dupes`
accumulator captured by the plugin's closure, the error invocations of
`done` so far, and the event trace. -/
structure RState where
  files : Files
  dupes : Files
  errs : List String
  trace : List Ev
  deriving DecidableEq, Repr

/-- One iteration of the `for (const key in fam)` staging loop, lines
352–359: stage the family member in `dupes` under its relocated path and
record the move in `moved`. -/
def stageStep (ppath : String) (acc : Files × List (String × String) × List Ev)
    (kv : String × Doc) : Files × List (String × String) × List Ev :=
  let rel := pjoin [ppath, kv.1]
  (setKV acc.1 rel kv.2, acc.2.1 ++ [(kv.1, rel)], acc.2.2 ++ [Ev.stage rel])

/-- The whole staging loop over a family, starting from the current `dupes`
accumulator: the updated `dupes`, the `moved` map, and the stage events. -/
def stageFam (ppath : String) (fam dupes0 : Files) :
    Files × List (String × String) × List Ev :=
  fam.foldl (stageStep ppath) (dupes0, [], [])

/-- The family of a document under the effective linkset's `relative`
policy (the `switch` of lines 329–338), computed against the current file
set; `none` when no family is computed. -/
def docFam (cfg : Config) (data : Doc) (file : String) (files : Files) :
    Option Files :=
  match (effectiveLinkset cfg data).relative with
  | some .vtrue => some (family file files)
  | some .vfolder => some (folder file files)
  | _ => none

/-- The candidate path of a document after the `permalink` override (lines
326 and 341–346): line 326 always runs first, so a `TypeError` thrown by
pattern resolution propagates even when an override exists; otherwise the
explicit `permalink` metadata wins over the pattern/fallback path.
(`data.hasOwnProperty('permalink') && data.permalink !== false` — a
non-string, non-false `permalink` would make the JavaScript throw inside
`path.join`; only string overrides are modelled.) -/
def docPpath (cfg : Config) (data : Doc) (file : String) : JSRes String :=
  match candidatePath (effectiveLinkset cfg data) data file with
  | .thrown => .thrown
  | .ok ppath0 =>
    .ok (match metaLookup data "permalink" with
         | some (.str s) => s
         | _ => ppath0)

/-- Lines 350–368 of the loop body, after `makeUnique` has produced
`result`: stage the family in `dupes`, write `data.path`, relink the
contents, and commit the rename.  On a `duplicatesFail` clash `done` has
been invoked with the error and `defaultUniquePath` returned `undefined`,
and the body continues: `files[undefined]` coerces to the key
`"undefined"`. -/
def commitResult (cfg : Config) (st : RState) (file : String) (data : Doc)
    (ppath : String) (result : Except String String) : RState :=
  let staged :=
    match docFam cfg data file st.files with
    | none => (st.dupes, ([] : List (String × String)), ([] : List Ev))
    | some fam => stageFam ppath fam st.dupes
  let pathVal := if ppath = "." then "" else backslashToSlash ppath
  let data1 := metaSet data "path" (.str pathVal)
  let data2 := { data1 with contents := relinkStr data1.contents staged.2.1 }
  let eo :=
    match result with
    | .error e => (st.errs ++ [e], "undefined")
    | .ok t => (st.errs, t)
  { files := setKV (delKV st.files file) eo.2 data2
    dupes := staged.1
    errs := eo.1
    trace := st.trace ++ staged.2.2 ++ [.commit file eo.2] }

/-- One iteration of the `Object.keys(files).forEach(file => …)` body,
translated from lines 316–369 of the source: the entry guards, then
pattern resolution, uniqueness resolution and the commit.  `none` marks an
invocation that does not complete normally: a `TypeError` thrown by pattern
resolution, or non-termination of the uniqueness loop. -/
def stepRun (cfg : Config) (st : RState) (file : String) : Option RState :=
  match lookupKV st.files file with
  | none =>
    -- Unreachable for snapshot keys: entries are only deleted when visited.
    some { st with trace := st.trace ++ [.skipEv file] }
  | some data =>
    if ¬ htmlB file then some { st with trace := st.trace ++ [.skipEv file] }
    else if metaLookup data "permalink" = some (.bool false) then
      some { st with trace := st.trace ++ [.skipEv file] }
    else
      match docPpath cfg data file with
      | .thrown => none
      | .ok ppath =>
        (makeUnique cfg ppath st.files file).map
          (commitResult cfg st file data ppath)

/-- The post-loop merge, lines 373–375:
`Object.keys(dupes).forEach(dupe => { files[dupe] = dupes[dupe] })`. -/
def mergeDupes (files dupes : Files) : Files :=
  dupes.foldl (fun fs kv => setKV fs kv.1 kv.2) files

/-- The observable outcome of one plugin invocation. -/
structure RunOut where
  files : Files
  dupes : Files
  evs : List (Option String)
  trace : List Ev
  deriving DecidableEq, Repr

/-- One invocation of the returned `permalinksPlugin(files, metalsmith,
done)`, with the closure's `dupes` accumulator made explicit: it is created
once per `permalinks(options)` call and threaded through every invocation.
`evs` records the invocations of the completion callback `done`, in order:
the synchronous error calls made inside `defaultUniquePath`, followed by the
argument-less call scheduled by `setImmediate(done)` on entry (which fires
after the synchronous pass).  The iterated keys are the snapshot
`Object.keys(files)` taken before any mutation. -/
def runPlugin (cfg : Config) (dupes0 : Files) (files0 : Files) : Option RunOut :=
  let snapshot := keysOf files0
  (snapshot.foldl (fun acc k => acc.bind fun st => stepRun cfg st k)
      (some { files := files0, dupes := dupes0, errs := [], trace := [] })).map
    fun st =>
      { files := mergeDupes st.files st.dupes
        dupes := st.dupes
        evs := st.errs.map some ++ [none]
        trace := st.trace ++ st.dupes.map (fun kv => Ev.mergeEv kv.1) }

/-- Two consecutive invocations of the same plugin function (sharing its
`dupes` closure): the staged keys of the first run, and the file-set and
staged keys after the second run. -/
def twoRunKeys (cfg : Config) (d0 f0 f1 : Files) :
    Option (List String × List String × List String) :=
  match runPlugin cfg d0 f0 with
  | none => none
  | some r0 =>
    (runPlugin cfg r0.dupes f1).map fun r1 =>
      (keysOf r0.dupes, keysOf r1.files, keysOf r1.dupes)

end Permalinks

namespace Permalinks

/-! ## Concrete scenarios used by the claim theorems -/

/-- A stand-in for the external `moment` formatter factory: no concrete run
below formats a date, so any formatter works. -/
def mfX : String → Int → String := fun _ _ => ""

/-- Build a document. -/
def mkd (c : String) (m : List (String × FieldVal)) : Doc :=
  { contents := c, meta := m }

/-- All-default configuration (`relative: true`). -/
def cfgDefault : Config := normalize mfX {}

/-- `post/article.html` with explicit `permalink: 'post-slug'` and contents
referencing its sibling image twice. -/
def artDoc : Doc :=
  mkd "see image.png and image.png" [("permalink", .str "post-slug")]

/-- The sibling image. -/
def imgDoc : Doc := mkd "IMG" []

/-- File set of the family/relink scenario (spec §8, *Family
carry-through*). -/
def relinkFiles : Files :=
  [("post/article.html", artDoc), ("post/image.png", imgDoc)]

/-- Configuration with `duplicatesFail: true`. -/
def cfgDupFail : Config := normalize mfX { duplicatesFail := some true }

/-- Three documents: two collide on target `foo/index.html`, a third follows
the collision. -/
def clashFiles3 : Files :=
  [("a.html", mkd "A" [("permalink", .str "foo")]),
   ("b.html", mkd "B" [("permalink", .str "foo")]),
   ("c.html", mkd "C" [])]

/-- Two documents colliding on target `foo/index.html`. -/
def clashFiles2 : Files :=
  [("a.html", mkd "A" [("permalink", .str "foo")]),
   ("b.html", mkd "B" [("permalink", .str "foo")])]

/-- Configuration with `unique: true` (and `duplicatesFail` off). -/
def cfgUnique : Config := normalize mfX { unique := some (.ubool true) }

/-- A file set in which `foo/index.html` is already occupied. -/
def fooFiles : Files := [("foo/index.html", mkd "X" [])]

/-- A linkset with its own `pattern`, matching documents whose `section`
is `blog`. -/
def lsBlog : LSObj :=
  { lsMatch := some [("section", .str "blog")], pattern := some ":date/:title" }

/-- Global options carrying their own `pattern` next to the `lsBlog`
linkset. -/
def cfgLinkset : Config :=
  normalize mfX { pattern := some ":title", linksets := some [lsBlog] }

/-- A document matching `lsBlog`. -/
def blogDoc : Doc := mkd "" [("section", .str "blog"), ("title", .str "T")]

/-- A linkset whose pattern has a `date` placeholder and which carries a
date formatter (as every effective linkset does whenever the default
linkset is the normalized global options). -/
def lsDateTitle : LSObj :=
  { pattern := some ":date/:title", dateF := some (mfX "YYYY/MM/DD") }

/-- A document with a `title` but no `date`. -/
def titleOnlyDoc : Doc := mkd "" [("title", .str "x")]

/-- A user-supplied `isDefault` linkset that matches every document (empty
`match`), carries the pattern `:date/:title`, and omits `date`: the merge
never installs the global default formatter on it. -/
def lsIsDef : LSObj :=
  { lsMatch := some [], pattern := some ":date/:title", isDefault := some true }

/-- Options whose only linkset is `lsIsDef`. -/
def cfgIsDef : Config := normalize mfX { linksets := some [lsIsDef] }

/-- A document with a `Date`-valued `date` field and no `title`. -/
def dateOnlyDoc : Doc := mkd "" [("date", .date 0)]

/-- Family scenario with a sibling directory whose name shares the parent
directory's prefix. -/
def prefixSiblingFiles : Files :=
  [("post/article.html", artDoc), ("post-extra/img.png", imgDoc)]

/-- File set for the staging/merging scenarios: a document plus a sibling
asset, no `permalink` override. -/
def stageFiles : Files :=
  [("post/article.html", mkd "A" []), ("post/image.png", imgDoc)]

/-- A second, unrelated file set handed to a later invocation of the same
plugin function. -/
def laterFiles : Files := [("x.html", mkd "X" [])]

end Permalinks

namespace Permalinks

/-! ## Claim theorems -/

/-- C1: the claim states that for every moved family entry, every literal
occurrence of the *old* reference string in the document's contents is
replaced by its *new* reference string — in particular that the references
to `image.png` inside `post/article.html` (relocated to
`post-slug/index.html` with sibling `post/image.png` staged at
`post-slug/image.png`) are rewritten to `post-slug/image.png`.  The code
does the opposite: `relink` iterates the keys of `moved` (the old relative
references) as the *replacement* and the values (the new paths) as the
*search string*, and `String.prototype.replace` with a string pattern
replaces only the first occurrence.  Evaluating the plugin at the claim's
own example shows the document's contents come through unchanged (the old
references are still there), even though the sibling is staged at its new
path; and `relink` applied to contents that do mention the new path
rewrites the new path back to the old relative reference. -/
theorem relink_leaves_references_unrewritten :
    (runPlugin cfgDefault [] relinkFiles).map
        (fun r => ((lookupKV r.files "post-slug/index.html").map Doc.contents,
                   (lookupKV r.files "post-slug/image.png").isSome))
      = some (some "see image.png and image.png", true) ∧
    relinkStr "x post-slug/image.png y" [("/image.png", "post-slug/image.png")]
      = "x /image.png y" := by
  constructor
  · decide
  · decide

/-- C2: the claim states the matched linkset's fields win over the global
defaults for fields both define.  The code computes
`Object.assign({}, findLinkset(data), defaultLinkset)`, in which the
*default* linkset's own properties override the matched linkset's: for a
document matched by a linkset with pattern `:date/:title` under a global
configuration with pattern `:title`, the effective pattern is the global
`:title`, not the matched linkset's. -/
theorem default_overrides_matched_linkset_pattern :
    (findLinkset cfgLinkset blogDoc).pattern = some ":date/:title" ∧
    (defaultLS cfgLinkset).pattern = some ":title" ∧
    (effectiveLinkset cfgLinkset blogDoc).pattern = some ":title" := by
  refine ⟨rfl, rfl, rfl⟩

/-- C3: the claim states that with `duplicatesFail: true` a collision makes
the run fail with an error naming the conflicting target (true) and that the
remaining pass is aborted with no document after the colliding one committed
(false).  In the code, `return done(msg)` only exits the `defaultUniquePath`
helper; the `forEach` body then commits the colliding document under the
literal key `"undefined"` (the coerced `undefined` return value) and keeps
processing: with three documents of which the second collides on
`foo/index.html`, the error is reported naming `foo/index.html`, the first
document's rename stays committed, the second lands under `"undefined"`,
and the third is still committed at `c/index.html`. -/
theorem duplicatesFail_does_not_abort_pass :
    (runPlugin cfgDupFail [] clashFiles3).map
        (fun r =>
          (r.evs.head?,
           (lookupKV r.files "foo/index.html").isSome,
           (lookupKV r.files "undefined").isSome,
           (lookupKV r.files "c/index.html").isSome))
      = some
          (some (some "Permalinks: Clash with another target file foo/index.html"),
           true, true, true) := by
  decide

/-- C4: the claim states the completion callback is invoked exactly once —
with the error on a fatal collision, with no error on success.  On a fatal
collision the code invokes `done` twice: once synchronously with the error
string from inside `defaultUniquePath`, and once more with no argument from
the `setImmediate(done)` scheduled on entry, which fires after the pass. -/
theorem done_called_twice_on_collision :
    (runPlugin cfgDupFail [] clashFiles2).map (fun r => r.evs)
      = some [some "Permalinks: Clash with another target file foo/index.html",
              none] ∧
    (runPlugin cfgDefault [] relinkFiles).map (fun r => r.evs)
      = some [none] := by
  constructor
  · decide
  · decide

/-- C5 counterexample: the claim states that with `relative: true` the
family of `post/article.html` contains only non-HTML files from the *same
parent directory* `post`, and in particular nothing from a sibling
directory whose name merely starts with the same prefix.  But `family` uses
a bare `indexOf(dir) === 0` string-prefix test: `post-extra/img.png`, whose
parent directory is `post-extra`, is included in the family of
`post/article.html` (keyed by `-extra/img.png`). -/
theorem family_includes_prefix_sibling_directory :
    family "post/article.html" prefixSiblingFiles
        = [("-extra/img.png", imgDoc)] ∧
    dirname "post-extra/img.png" ≠ dirname "post/article.html" := by
  constructor
  · decide
  · decide

end Permalinks

namespace Permalinks

/-- A literal prefix plus the remainder determine the whole key. -/
theorem strPrefix_drop_iff (dir k rel : List Char) :
    (dir.isPrefixOf k = true ∧ k.drop dir.length = rel) ↔ k = dir ++ rel := by
  constructor
  · rintro ⟨hp, hd⟩
    rw [List.isPrefixOf_iff_prefix] at hp
    obtain ⟨t, rfl⟩ := hp
    rw [List.drop_left] at hd
    rw [hd]
  · rintro rfl
    refine ⟨?_, List.drop_left _ _⟩
    rw [List.isPrefixOf_iff_prefix]
    exact List.prefix_append _ _

/-- C5 (amended): under `relative: true` the family of a document consists
of exactly the non-HTML entries, other than the document itself, whose key
starts with the literal string `dirname(file)` (with `'.'` read as the empty
string) — which includes files in subdirectories and in sibling directories
whose names merely share that prefix — each keyed by the key with that
prefix removed: `(rel, d)` is a family entry exactly when the file set maps
`dirname(file) ++ rel` to `d`, that key is not the document itself, and it
is not an HTML file. -/
theorem family_mem_characterization (file : String) (files : Files)
    (rel : String) (d : Doc) :
    (rel, d) ∈ family file files ↔
      ((famDir file ++ rel, d) ∈ files ∧ famDir file ++ rel ≠ file ∧
        htmlB (famDir file ++ rel) = false) := by
  unfold family
  rw [List.mem_filterMap]
  constructor
  · rintro ⟨⟨k, v⟩, hmem, hf⟩
    simp only at hf
    split at hf
    · exact absurd hf (by simp)
    · split at hf
      · exact absurd hf (by simp)
      · split at hf
        · exact absurd hf (by simp)
        · rename_i h1 h2 h3
          rw [not_not] at h2
          injection hf with hpair
          have hrel : (⟨k.data.drop (famDir file).data.length⟩ : String) = rel :=
            congrArg Prod.fst hpair
          have hv : v = d := congrArg Prod.snd hpair
          have hkdata : k.data = (famDir file).data ++ rel.data :=
            (strPrefix_drop_iff (famDir file).data k.data rel.data).mp
              ⟨h2, congrArg String.data hrel⟩
          have hk : k = famDir file ++ rel := by
            apply String.ext
            rw [String.data_append]
            exact hkdata
          subst hk hv
          exact ⟨hmem, h1, by simpa using h3⟩
  · rintro ⟨hmem, hne, hhtml⟩
    refine ⟨(famDir file ++ rel, d), hmem, ?_⟩
    simp only
    have hpre : (famDir file).data.isPrefixOf (famDir file ++ rel).data = true := by
      rw [String.data_append, List.isPrefixOf_iff_prefix]
      exact List.prefix_append _ _
    rw [if_neg hne, if_neg (by simp [hpre]), if_neg (by simp [hhtml])]
    have hdrop : (famDir file ++ rel).data.drop (famDir file).data.length
        = rel.data := by
      rw [String.data_append]
      exact List.drop_left _ _
    rw [hdrop]

/-- Witness for C5 (amended): the sibling `post/image.png` is in the family
of `post/article.html`, keyed `/image.png`. -/
theorem family_mem_characterization_witness :
    ("/image.png", imgDoc) ∈ family "post/article.html" stageFiles :=
  (family_mem_characterization "post/article.html" stageFiles "/image.png"
    imgDoc).mpr (by refine ⟨?_, ?_, ?_⟩ <;> decide)

/-- When the linkset carries a date formatter and a placeholder's field is
absent or an empty array, the resolution loop of `replace` returns null
(it cannot throw). -/
theorem replaceGo_none_of_bad (p : String) (data : Doc) (ls : LSObj)
    (k : String) (df : Int → String) (hdf : ls.dateF = some df)
    (hbad : metaLookup data k = none ∨ metaLookup data k = some (.list [])) :
    ∀ ks ret, k ∈ ks → replaceGo p data ls ks ret = .ok none := by
  intro ks
  induction ks with
  | nil => intro ret h; exact absurd h (List.not_mem_nil k)
  | cons k' ks ih =>
    intro ret hmem
    by_cases hk : k' = k
    · subst hk
      rcases hbad with h | h
      · simp [replaceGo, h]
      · simp [replaceGo, h, truthyF]
    · have hmem' : k ∈ ks := by
        rcases List.mem_cons.mp hmem with h | h
        · exact absurd h.symm hk
        · exact h
      unfold replaceGo
      cases hx : metaLookup data k' with
      | none => rfl
      | some v =>
        by_cases ht : truthyF v
        · by_cases he : v = .list []
          · simp [ht, he]
          · cases v with
            | date t => simp [ht, he, hdf]; exact ih _ hmem'
            | str s => simp [ht, he]; exact ih _ hmem'
            | list xs => simp [ht, he]; exact ih _ hmem'
            | bool b => simp [ht, he]; exact ih _ hmem'
        · simp [ht]

/-- C6 counterexample: the claim's "returns null … and the engine falls
back … instead of raising an error" fails on the code.  With a
user-supplied `isDefault` linkset that omits `date` (the merge never
installs the global default formatter on it), pattern `:date/:title`, and
a document carrying a `Date`-valued `date` but no `title`, the effective
linkset has no date formatter, `title` is a missing placeholder field, and
yet `replace` hits `ret[key] = options.date(val)` first and throws a
`TypeError` instead of returning null; the candidate-path computation
propagates the exception rather than falling back to the path-derived
permalink. -/
theorem replace_throws_without_date_formatter :
    (effectiveLinkset cfgIsDef dateOnlyDoc).pattern = some ":date/:title" ∧
    (effectiveLinkset cfgIsDef dateOnlyDoc).dateF.isNone = true ∧
    "title" ∈ params ":date/:title" ∧
    metaLookup dateOnlyDoc "title" = none ∧
    replace (some ":date/:title") dateOnlyDoc
        (effectiveLinkset cfgIsDef dateOnlyDoc) = JSRes.thrown ∧
    candidatePath (effectiveLinkset cfgIsDef dateOnlyDoc) dateOnlyDoc
        "posts/hello.html" = JSRes.thrown := by
  refine ⟨?_, ?_, ?_, ?_, ?_, ?_⟩ <;> decide

/-- C6 (amended): pattern resolution returns null whenever the pattern is
null (absent) or empty; and — provided the effective linkset carries a
date formatter, which holds in every configuration except when a
user-supplied `isDefault` linkset omits `date` — also whenever some
placeholder's document field is absent or an empty array.  In every such
case the candidate path falls back to the path-derived permalink
`resolve(file)` instead of raising an error.  (Without a date formatter,
resolving a `Date`-valued placeholder instead throws a `TypeError`.) -/
theorem replace_null_and_fallback (ls : LSObj) (data : Doc) (file : String)
    (p k : String)
    (h : ls.pattern = none ∨ ls.pattern = some "" ∨
      ((∃ df, ls.dateF = some df) ∧ ls.pattern = some p ∧ k ∈ params p ∧
        (metaLookup data k = none ∨ metaLookup data k = some (.list [])))) :
    replace ls.pattern data ls = .ok none ∧
      candidatePath ls data file = .ok (resolve file) := by
  have hnull : replace ls.pattern data ls = .ok none := by
    rcases h with h | h | ⟨⟨df, hdf⟩, hp, hmem, hbad⟩
    · rw [h]; rfl
    · rw [h]; simp [replace]
    · rw [hp]
      have hpne : p.data ≠ [] := by
        intro hc
        unfold params lexPattern at hmem
        rw [hc] at hmem
        simp [lexPatternF] at hmem
      show (if p.data = [] then JSRes.ok none
            else replaceGo p data ls (params p) []) = .ok none
      rw [if_neg hpne]
      exact replaceGo_none_of_bad p data ls k df hdf hbad (params p) [] hmem
  refine ⟨hnull, ?_⟩
  unfold candidatePath
  rw [hnull]

/-- Witness for C6 (amended): pattern `:date/:title` under a linkset with
a date formatter and a document lacking `date` resolves to null, and the
candidate path is the path-derived fallback. -/
theorem replace_null_and_fallback_witness :
    replace (some ":date/:title") titleOnlyDoc lsDateTitle = .ok none ∧
      candidatePath lsDateTitle titleOnlyDoc "posts/hello.html"
        = .ok (resolve "posts/hello.html") :=
  replace_null_and_fallback lsDateTitle titleOnlyDoc "posts/hello.html"
    ":date/:title" "date"
    (Or.inr (Or.inr ⟨⟨mfX "YYYY/MM/DD", rfl⟩, rfl, by decide,
      Or.inl (by decide)⟩))

/-- The do/while loop of `defaultUniquePath` returns the candidate of the
first iteration whose target is free, provided `duplicatesFail` is off,
`unique` is truthy, and the fuel reaches that iteration. -/
theorem dupLoop_reaches (cfg : Config) (tp : String) (files : Files)
    (hdup : dupFailB cfg = false) (huni : uniqueTruthy cfg = true) :
    ∀ fuel c k, c ≤ k → k - c < fuel →
      (∀ j, c ≤ j → j < k → (lookupKV files (targetAt cfg tp j)).isSome = true) →
      lookupKV files (targetAt cfg tp k) = none →
      dupLoop cfg tp files c fuel = some (.ok (targetAt cfg tp k)) := by
  intro fuel
  induction fuel with
  | zero => intro c k _ h; omega
  | succ fuel ih =>
    intro c k hck hfuel hocc hfree
    unfold dupLoop
    rw [if_neg (by rw [hdup]; simp)]
    rcases Nat.lt_or_ge c k with hlt | hge
    · rw [if_pos (by rw [huni, hocc c le_rfl hlt]; simp)]
      exact ih (c + 1) k hlt (by omega)
        (fun j hj1 hj2 => hocc j (by omega) hj2) hfree
    · have hck' : c = k := le_antisymm hck hge
      subst hck'
      rw [if_neg (by rw [hfree]; simp)]

/-- C7: with `unique: true` and `duplicatesFail` off, the default
uniqueness resolver tries `targetAt 0` (the candidate directory with the
index file appended), then `targetAt 1, 2, …` (the directory with numeric
suffixes `-1`, `-2`, … appended), and returns the first candidate not
occupied in the file set. -/
theorem defaultUniquePath_first_free_suffix (cfg : Config) (tp : String)
    (files : Files) (k fuel : Nat)
    (hdup : dupFailB cfg = false) (huni : uniqueTruthy cfg = true)
    (hk : k < fuel)
    (hocc : ∀ j, j < k → (lookupKV files (targetAt cfg tp j)).isSome = true)
    (hfree : lookupKV files (targetAt cfg tp k) = none) :
    dupLoop cfg tp files 0 fuel = some (.ok (targetAt cfg tp k)) :=
  dupLoop_reaches cfg tp files hdup huni fuel 0 k (Nat.zero_le k) (by omega)
    (fun j _ hj => hocc j hj) hfree

/-- Witness for C7: candidate `foo` with `foo/index.html` occupied resolves
to `foo-1/index.html`. -/
theorem defaultUniquePath_first_free_suffix_witness :
    dupLoop cfgUnique "foo" fooFiles 0 2 = some (.ok "foo-1/index.html") := by
  have h := defaultUniquePath_first_free_suffix cfgUnique "foo" fooFiles 1 2
    (by decide) (by decide) (by decide) (by decide) (by decide)
  exact (by decide : targetAt cfgUnique "foo" 1 = "foo-1/index.html") ▸ h

end Permalinks

namespace Permalinks

/-! ## Key-set lemmas for the orchestrator -/

/-- Assigning a key either leaves the key list unchanged (update in place)
or appends the key. -/
theorem keysOf_setKV {α : Type} (l : List (String × α)) (k : String) (v : α) :
    keysOf (setKV l k v) = keysOf l ∨ keysOf (setKV l k v) = keysOf l ++ [k] := by
  unfold setKV
  split
  · left
    unfold keysOf
    rw [List.map_map]
    apply List.map_congr_left
    intro kv _
    by_cases h : kv.1 = k
    · simp [h]
    · simp [h]
  · right
    unfold keysOf
    rw [List.map_append]
    rfl

/-- Assignment never removes a key. -/
theorem mem_keysOf_setKV {α : Type} (l : List (String × α)) (k k' : String)
    (v : α) (h : k' ∈ keysOf l) : k' ∈ keysOf (setKV l k v) := by
  rcases keysOf_setKV l k v with he | he <;> rw [he]
  · exact h
  · exact List.mem_append_left _ h

/-- After an assignment, the assigned key is present. -/
theorem mem_keysOf_setKV_self {α : Type} (l : List (String × α)) (k : String)
    (v : α) : k ∈ keysOf (setKV l k v) := by
  unfold setKV
  split
  · rename_i hfind
    rw [Option.isSome_iff_exists] at hfind
    obtain ⟨kv, hkv⟩ := hfind
    have hmem := List.mem_of_find?_eq_some hkv
    have hk : kv.1 = k := by simpa using List.find?_some hkv
    unfold keysOf
    rw [List.map_map]
    refine List.mem_map.mpr ⟨kv, hmem, ?_⟩
    simp [hk]
  · unfold keysOf
    rw [List.map_append]
    exact List.mem_append_right _ (by simp)

/-- The post-loop merge preserves existing file-set keys. -/
theorem mergeDupes_mono (files dupes : Files) (k : String)
    (h : k ∈ keysOf files) : k ∈ keysOf (mergeDupes files dupes) := by
  induction dupes generalizing files with
  | nil => exact h
  | cons kv rest ih => exact ih (setKV files kv.1 kv.2) (mem_keysOf_setKV _ _ _ _ h)

/-- The post-loop merge inserts every staged key into the file set. -/
theorem mem_keysOf_mergeDupes (files dupes : Files) (k : String)
    (h : k ∈ keysOf dupes) : k ∈ keysOf (mergeDupes files dupes) := by
  induction dupes generalizing files with
  | nil => exact absurd h (by simp [keysOf])
  | cons kv rest ih =>
    rcases List.mem_cons.mp h with he | hm
    · subst he
      show kv.1 ∈ keysOf (mergeDupes (setKV files kv.1 kv.2) rest)
      exact mergeDupes_mono _ _ _ (mem_keysOf_setKV_self files kv.1 kv.2)
    · exact ih (setKV files kv.1 kv.2) hm

/-- The staging loop only grows the `dupes` key set, and every event it
emits is a stage event. -/
theorem stageFam_aux (ppath : String) (fam : Files) :
    ∀ acc : Files × List (String × String) × List Ev,
      (∀ p, p ∈ keysOf acc.1 → p ∈ keysOf (fam.foldl (stageStep ppath) acc).1) ∧
      (∀ e ∈ (fam.foldl (stageStep ppath) acc).2.2,
        e ∈ acc.2.2 ∨ ∃ x, e = Ev.stage x) := by
  induction fam with
  | nil => exact fun acc => ⟨fun p h => h, fun e he => Or.inl he⟩
  | cons kv rest ih =>
    intro acc
    constructor
    · intro p hp
      exact (ih (stageStep ppath acc kv)).1 p (mem_keysOf_setKV _ _ _ _ hp)
    · intro e he
      rcases (ih (stageStep ppath acc kv)).2 e he with hin | hst
      · rcases List.mem_append.mp hin with h | h
        · exact Or.inl h
        · exact Or.inr ⟨_, by simpa using h⟩
      · exact Or.inr hst

/-- A commit grows the `dupes` key set and appends only stage/commit events
to the trace — never a merge event. -/
theorem commitResult_shape (cfg : Config) (st : RState) (file : String)
    (data : Doc) (ppath : String) (result : Except String String) :
    (∀ p, p ∈ keysOf st.dupes →
        p ∈ keysOf (commitResult cfg st file data ppath result).dupes) ∧
    ∃ app, (commitResult cfg st file data ppath result).trace
        = st.trace ++ app ∧
      ∀ e ∈ app, ∀ x, e ≠ Ev.mergeEv x := by
  unfold commitResult
  constructor
  · intro p hp
    simp only
    split
    · exact hp
    · exact (stageFam_aux _ _ _).1 p hp
  · refine ⟨_, List.append_assoc _ _ _, ?_⟩
    intro e he x
    rcases List.mem_append.mp he with hin | hcommit
    · revert hin
      split
      · intro hin; simp at hin
      · intro hin
        rcases (stageFam_aux _ _ _).2 e (by simpa [stageFam] using hin) with
          hemp | ⟨y, hy⟩
        · simp at hemp
        · simp [hy]
    · simp at hcommit
      simp [hcommit]

/-- One loop iteration grows the `dupes` key set and appends only non-merge
events to the trace. -/
theorem stepRun_shape (cfg : Config) (st st' : RState) (file : String)
    (h : stepRun cfg st file = some st') :
    (∀ p, p ∈ keysOf st.dupes → p ∈ keysOf st'.dupes) ∧
    ∃ app, st'.trace = st.trace ++ app ∧ ∀ e ∈ app, ∀ x, e ≠ Ev.mergeEv x := by
  unfold stepRun at h
  split at h
  · obtain rfl := Option.some.inj h
    exact ⟨fun p hp => hp, [Ev.skipEv file], rfl,
      by intro e he x; simp at he; simp [he]⟩
  · rename_i data hdata
    split at h
    · obtain rfl := Option.some.inj h
      exact ⟨fun p hp => hp, [Ev.skipEv file], rfl,
        by intro e he x; simp at he; simp [he]⟩
    · split at h
      · obtain rfl := Option.some.inj h
        exact ⟨fun p hp => hp, [Ev.skipEv file], rfl,
          by intro e he x; simp at he; simp [he]⟩
      · split at h
        · exact absurd h (by simp)
        · rename_i ppath hpp
          rw [Option.map_eq_some'] at h
          obtain ⟨result, -, rfl⟩ := h
          exact commitResult_shape cfg st file data ppath result

/-- The per-document loop propagates non-termination. -/
theorem loop_none (cfg : Config) (keys : List String) :
    keys.foldl (fun acc k => acc.bind fun s => stepRun cfg s k) none = none := by
  induction keys with
  | nil => rfl
  | cons k ks ih => simpa using ih

/-- Across the whole per-document loop, the `dupes` key set only grows and
the trace gains only non-merge events. -/
theorem loop_shape (cfg : Config) (keys : List String) :
    ∀ st st',
      keys.foldl (fun acc k => acc.bind fun s => stepRun cfg s k) (some st)
        = some st' →
      (∀ p, p ∈ keysOf st.dupes → p ∈ keysOf st'.dupes) ∧
      ∃ app, st'.trace = st.trace ++ app ∧ ∀ e ∈ app, ∀ x, e ≠ Ev.mergeEv x := by
  induction keys with
  | nil =>
    intro st st' h
    obtain rfl := Option.some.inj h
    exact ⟨fun p hp => hp, [], by simp, by simp⟩
  | cons k ks ih =>
    intro st st' h
    rw [List.foldl_cons] at h
    cases hstep : stepRun cfg st k with
    | none =>
      rw [show ((some st).bind fun s => stepRun cfg s k) = none by
        simpa using hstep] at h
      rw [loop_none] at h
      exact absurd h (by simp)
    | some st1 =>
      rw [show ((some st).bind fun s => stepRun cfg s k) = some st1 by
        simpa using hstep] at h
      obtain ⟨hm1, app1, htr1, hnm1⟩ := stepRun_shape cfg st st1 k hstep
      obtain ⟨hm2, app2, htr2, hnm2⟩ := ih st1 st' h
      refine ⟨fun p hp => hm2 p (hm1 p hp), app1 ++ app2, ?_, ?_⟩
      · rw [htr2, htr1, List.append_assoc]
      · intro e he x
        rcases List.mem_append.mp he with h1 | h2
        · exact hnm1 e h1 x
        · exact hnm2 e h2 x

/-- A completed invocation carries every initial (and staged) `dupes` key
into the final `dupes` and the merged file set, and its trace is a merge-
free loop trace followed by exactly the merge events of the staged keys. -/
theorem runPlugin_shape (cfg : Config) (d0 f0 : Files) (r : RunOut)
    (h : runPlugin cfg d0 f0 = some r) :
    (∀ p, p ∈ keysOf d0 → p ∈ keysOf r.dupes ∧ p ∈ keysOf r.files) ∧
    ∃ app, r.trace = app ++ r.dupes.map (fun kv => Ev.mergeEv kv.1) ∧
      ∀ e ∈ app, ∀ x, e ≠ Ev.mergeEv x := by
  unfold runPlugin at h
  rw [Option.map_eq_some'] at h
  obtain ⟨st, hfold, rfl⟩ := h
  obtain ⟨hm, app, htr, hnm⟩ := loop_shape cfg (keysOf f0) _ st hfold
  constructor
  · intro p hp
    have hd : p ∈ keysOf st.dupes := hm p hp
    exact ⟨hd, mem_keysOf_mergeDupes _ _ _ hd⟩
  · refine ⟨st.trace, rfl, ?_⟩
    intro e he x
    have happ : st.trace = app := by simpa using htr
    rw [happ] at he
    exact hnm e he x

/-- C9: in every completed invocation, every commit event (a document's
`delete files[src]; files[out] = data`) precedes every merge event (a
`files[key] = dupes[key]` insertion of a staged family file): the
pending-moves accumulator is merged into the file set only after the
per-document loop over all documents has finished. -/
theorem merge_events_after_commit_events (cfg : Config) (d0 f0 : Files)
    (tr : List Ev) (i j : Nat) (s o m : String)
    (h : (runPlugin cfg d0 f0).map RunOut.trace = some tr)
    (hi : tr[i]? = some (Ev.commit s o))
    (hj : tr[j]? = some (Ev.mergeEv m)) : i < j := by
  rw [Option.map_eq_some'] at h
  obtain ⟨r, hr, rfl⟩ := h
  obtain ⟨-, app, htr, hnm⟩ := runPlugin_shape cfg d0 f0 r hr
  rw [htr] at hi hj
  have hilt : i < app.length := by
    by_contra hge
    push_neg at hge
    rw [List.getElem?_append_right hge] at hi
    rcases List.mem_map.mp (List.getElem?_mem hi) with ⟨kv, -, hkv⟩
    exact absurd hkv (by simp)
  have hjge : app.length ≤ j := by
    by_contra hlt
    push_neg at hlt
    rw [List.getElem?_append_left hlt] at hj
    exact hnm _ (List.getElem?_mem hj) m rfl
  omega

/-- Witness for C9: in the concrete staging run, the commit (index 1)
precedes the merge (index 3). -/
theorem merge_events_after_commit_events_witness :
    (runPlugin cfgDefault [] stageFiles).map RunOut.trace
      = some [Ev.stage "post/article/image.png",
              Ev.commit "post/article.html" "post/article/index.html",
              Ev.skipEv "post/image.png",
              Ev.mergeEv "post/article/image.png"] ∧
    (1 : Nat) < 3 :=
  ⟨by decide,
   merge_events_after_commit_events cfgDefault [] stageFiles
     [Ev.stage "post/article/image.png",
      Ev.commit "post/article.html" "post/article/index.html",
      Ev.skipEv "post/image.png",
      Ev.mergeEv "post/article/image.png"]
     1 3 "post/article.html" "post/article/index.html" "post/article/image.png"
     (by decide) (by decide) (by decide)⟩

/-- C10: the `dupes` accumulator lives in the closure created by one
`permalinks(options)` call and is never cleared: every key staged during
one invocation of the plugin function is still in the accumulator at the
start of the next invocation, and the post-loop merge inserts it into that
invocation's file set — even when that file set never contained the family
file. -/
theorem dupes_persist_across_invocations (cfg : Config) (d0 f0 f1 : Files)
    (p : String) (ks0 ks1 ks2 : List String)
    (h : twoRunKeys cfg d0 f0 f1 = some (ks0, ks1, ks2)) (hp : p ∈ ks0) :
    p ∈ ks1 ∧ p ∈ ks2 := by
  unfold twoRunKeys at h
  cases h0 : runPlugin cfg d0 f0 with
  | none => rw [h0] at h; exact absurd h (by simp)
  | some r0 =>
    rw [h0, Option.map_eq_some'] at h
    obtain ⟨r1, hr1, heq⟩ := h
    simp only [Prod.mk.injEq] at heq
    obtain ⟨rfl, rfl, rfl⟩ := heq
    obtain ⟨hm, -⟩ := runPlugin_shape cfg r0.dupes f1 r1 hr1
    exact ⟨(hm p hp).2, (hm p hp).1⟩

/-- Witness for C10: `post/article/image.png`, staged while processing
`stageFiles`, is inserted into the file set of a later invocation whose
file set (`laterFiles`) never contained it. -/
theorem dupes_persist_across_invocations_witness :
    twoRunKeys cfgDefault [] stageFiles laterFiles
      = some (["post/article/image.png"],
              ["x/index.html", "post/article/image.png"],
              ["post/article/image.png"]) ∧
    "post/article/image.png" ∈ ["x/index.html", "post/article/image.png"] :=
  ⟨by decide,
   (dupes_persist_across_invocations cfgDefault [] stageFiles laterFiles
     "post/article/image.png"
     ["post/article/image.png"]
     ["x/index.html", "post/article/image.png"]
     ["post/article/image.png"]
     (by decide) (by decide)).1⟩

end Permalinks

namespace Permalinks

/-! ## Path algebra for the fallback resolver -/


theorem csplit_nil : csplit [] = [[]] := rfl

theorem csplit_cons (c : Char) (cs : List Char) :
    csplit (c :: cs)
      = if c = '/' then [] :: csplit cs
        else (c :: (csplit cs).headD []) :: (csplit cs).tail := by
  simp [csplit]

theorem csplit_ne_nil (l : List Char) : csplit l ≠ [] := by
  cases l with
  | nil => simp [csplit_nil]
  | cons c cs =>
    rw [csplit_cons]
    split <;> simp

theorem csplit_append (l₁ l₂ : List Char) :
    csplit (l₁ ++ '/' :: l₂) = csplit l₁ ++ csplit l₂ := by
  induction l₁ with
  | nil =>
    rw [List.nil_append, csplit_cons, if_pos rfl, csplit_nil]
    rfl
  | cons c cs ih =>
    rw [List.cons_append, csplit_cons, csplit_cons c cs]
    by_cases h : c = '/'
    · rw [if_pos h, if_pos h, ih]
      rfl
    · rw [if_neg h, if_neg h, ih]
      cases hcs : csplit cs with
      | nil => exact absurd hcs (csplit_ne_nil cs)
      | cons s ss => simp

theorem csplit_noslash (l : List Char) (h : ∀ c ∈ l, c ≠ '/') :
    csplit l = [l] := by
  induction l with
  | nil => rfl
  | cons c cs ih =>
    have hc : c ≠ '/' := h c (by simp)
    rw [csplit_cons, if_neg hc, ih (fun x hx => h x (by simp [hx]))]
    rfl

theorem cjoin_csplit (l : List Char) : cjoin (csplit l) = l := by
  induction l with
  | nil => rfl
  | cons c cs ih =>
    rw [csplit_cons]
    by_cases h : c = '/'
    · rw [if_pos h, h]
      cases hcs : csplit cs with
      | nil => exact absurd hcs (csplit_ne_nil cs)
      | cons s ss =>
        rw [hcs] at ih
        show [] ++ '/' :: cjoin (s :: ss) = '/' :: cs
        rw [ih]
        rfl
    · rw [if_neg h]
      cases hcs : csplit cs with
      | nil => exact absurd hcs (csplit_ne_nil cs)
      | cons s ss =>
        rw [hcs] at ih
        show cjoin ((c :: s) :: ss) = c :: cs
        cases ss with
        | nil =>
          have ih' : s = cs := ih
          show c :: s = c :: cs
          rw [ih']
        | cons t ts =>
          have ih' : s ++ '/' :: cjoin (t :: ts) = cs := ih
          show (c :: s) ++ '/' :: cjoin (t :: ts) = c :: cs
          rw [List.cons_append, ih']

theorem cjoin_append_single (as : List (List Char)) (b : List Char)
    (h : as ≠ []) : cjoin (as ++ [b]) = cjoin as ++ '/' :: b := by
  induction as with
  | nil => exact absurd rfl h
  | cons s ss ih =>
    cases ss with
    | nil => rfl
    | cons t ts =>
      show s ++ '/' :: cjoin ((t :: ts) ++ [b])
          = (s ++ '/' :: cjoin (t :: ts)) ++ '/' :: b
      rw [ih (by simp)]
      simp



theorem normStep_normal (ab : Bool) (st : List (List Char)) (s : List Char)
    (h : normalSeg s = true) : normStep ab st s = st ++ [s] := by
  unfold normStep
  unfold normalSeg at h
  rw [decide_eq_true_iff] at h
  rw [if_neg h.2.1, if_neg h.2.2]

theorem normSegs_normal_aux (ab : Bool) (segs : List (List Char))
    (h : ∀ s ∈ segs, normalSeg s = true) :
    ∀ st, segs.foldl (normStep ab) st = st ++ segs := by
  induction segs with
  | nil => intro st; simp
  | cons s ss ih =>
    intro st
    rw [List.foldl_cons, normStep_normal ab st s (h s (by simp)),
      ih (fun x hx => h x (by simp [hx]))]
    simp

theorem normSegs_normal (ab : Bool) (segs : List (List Char))
    (h : ∀ s ∈ segs, normalSeg s = true) : normSegs ab segs = segs := by
  unfold normSegs
  rw [normSegs_normal_aux ab segs h []]
  rfl

theorem dropTrailingSlashes_id (l : List Char)
    (h : ∀ c, l.getLast? = some c → c ≠ '/') : dropTrailingSlashes l = l := by
  unfold dropTrailingSlashes
  cases hr : l.reverse with
  | nil =>
    have : l = [] := by simpa using congrArg List.reverse hr
    simp [this]
  | cons c r =>
    have hc : c ≠ '/' := by
      apply h
      rw [List.getLast?_eq_head?_reverse, hr]
      rfl
    rw [List.dropWhile_cons, if_neg (by simpa using hc)]
    rw [← hr, List.reverse_reverse]

theorem splitLastC_none (sep : Char) (l : List Char) (h : ∀ c ∈ l, c ≠ sep) :
    splitLastC sep l = none := by
  induction l with
  | nil => rfl
  | cons c cs ih =>
    unfold splitLastC
    rw [ih (fun x hx => h x (by simp [hx]))]
    rw [if_neg (h c (by simp))]

theorem splitLastC_append (sep : Char) (l₁ l₂ : List Char)
    (h : ∀ c ∈ l₂, c ≠ sep) :
    splitLastC sep (l₁ ++ sep :: l₂) = some (l₁, l₂) := by
  induction l₁ with
  | nil =>
    show splitLastC sep (sep :: l₂) = some ([], l₂)
    unfold splitLastC
    rw [splitLastC_none sep l₂ h]
    rw [if_pos rfl]
  | cons c cs ih =>
    show splitLastC sep (c :: (cs ++ sep :: l₂)) = some (c :: cs, l₂)
    unfold splitLastC
    rw [ih]

theorem backslashToSlash_id (s : String) (h : ∀ c ∈ s.data, c ≠ '\\') :
    backslashToSlash s = s := by
  unfold backslashToSlash
  apply String.ext
  show s.data.map (fun c => if c = '\\' then '/' else c) = s.data
  have he : s.data.map (fun c => if c = '\\' then '/' else c) = s.data.map id := by
    apply List.map_congr_left
    intro c hc
    rw [if_neg (h c hc)]
    rfl
  rw [he, List.map_id]



theorem ne_nil_of_csplit_normal (l : List Char)
    (h : ∀ s ∈ csplit l, normalSeg s = true) : l ≠ [] := by
  intro hc
  subst hc
  have := h [] (by rw [csplit_nil]; simp)
  simp [normalSeg] at this

theorem head_ne_slash_of_csplit_normal (l : List Char)
    (h : ∀ s ∈ csplit l, normalSeg s = true) : l.head? ≠ some '/' := by
  intro hc
  cases l with
  | nil => simp at hc
  | cons c cs =>
    have hcc : c = '/' := by simpa using hc
    subst hcc
    have := h [] (by rw [csplit_cons, if_pos rfl]; simp)
    simp [normalSeg] at this

theorem last_ne_slash_of_csplit_normal (l : List Char)
    (h : ∀ s ∈ csplit l, normalSeg s = true) :
    ∀ c, l.getLast? = some c → c ≠ '/' := by
  intro c hlast hc
  subst hc
  have hrev : l.reverse.head? = some '/' := by
    rw [← List.getLast?_eq_head?_reverse]
    exact hlast
  obtain ⟨t, ht⟩ : ∃ t, l.reverse = '/' :: t := by
    cases hr : l.reverse with
    | nil => rw [hr] at hrev; simp at hrev
    | cons x xs =>
      rw [hr] at hrev
      have hx : x = '/' := by simpa using hrev
      exact ⟨xs, by rw [hx]⟩
  have hl : l = t.reverse ++ ['/'] := by
    have h2 := congrArg List.reverse ht
    rw [List.reverse_reverse] at h2
    simpa using h2
  have hmem : ([] : List Char) ∈ csplit l := by
    rw [hl, show (['/'] : List Char) = '/' :: [] from rfl, csplit_append,
      csplit_nil]
    simp
  have hn := h [] hmem
  simp [normalSeg] at hn



theorem dirname_of_append (x : String) (r : List Char) (hx : x.data ≠ [])
    (hxh : x.data.head? ≠ some '/') (hr : r ≠ []) (hrs : ∀ c ∈ r, c ≠ '/') :
    dirname ⟨x.data ++ '/' :: r⟩ = x := by
  unfold dirname
  have hdata : (⟨x.data ++ '/' :: r⟩ : String).data = x.data ++ '/' :: r := rfl
  rw [hdata, if_neg (by simp)]
  have hdts : dropTrailingSlashes (x.data ++ '/' :: r) = x.data ++ '/' :: r := by
    apply dropTrailingSlashes_id
    intro c hc
    rw [List.getLast?_append_cons] at hc
    cases r with
    | nil => exact absurd rfl hr
    | cons r0 rs =>
      rw [List.getLast?_cons_cons] at hc
      exact hrs c (List.mem_of_mem_getLast? hc)
  rw [hdts, splitLastC_append '/' x.data r hrs]
  have hhead : (x.data ++ '/' :: r).head? = x.data.head? := by
    cases hx2 : x.data with
    | nil => exact absurd hx2 hx
    | cons a as => rfl
  dsimp only
  rw [if_neg hx]
  rw [if_neg ?hcond]
  case hcond =>
    intro hco
    rw [hhead] at hco
    exact hxh hco.1

theorem dirname_of_noslash (l : List Char) (hl : l ≠ [])
    (hh : l.head? ≠ some '/') (hs : ∀ c ∈ l, c ≠ '/') :
    dirname ⟨l⟩ = "." := by
  unfold dirname
  have hdata : (⟨l⟩ : String).data = l := rfl
  rw [hdata, if_neg hl]
  have hdts : dropTrailingSlashes l = l := by
    apply dropTrailingSlashes_id
    intro c hc
    exact hs c (List.mem_of_mem_getLast? hc)
  rw [hdts, splitLastC_none '/' l hs]
  rw [if_neg hh]

theorem baseRegion_of_append (x r : List Char) (hr : r ≠ [])
    (hrs : ∀ c ∈ r, c ≠ '/') : baseRegion ⟨x ++ '/' :: r⟩ = r := by
  unfold baseRegion
  have hdata : (⟨x ++ '/' :: r⟩ : String).data = x ++ '/' :: r := rfl
  rw [hdata]
  have hdts : dropTrailingSlashes (x ++ '/' :: r) = x ++ '/' :: r := by
    apply dropTrailingSlashes_id
    intro c hc
    rw [List.getLast?_append_cons] at hc
    cases r with
    | nil => exact absurd rfl hr
    | cons r0 rs =>
      rw [List.getLast?_cons_cons] at hc
      exact hrs c (List.mem_of_mem_getLast? hc)
  dsimp only
  rw [hdts, splitLastC_append '/' x r hrs]

theorem baseRegion_of_noslash (l : List Char) (hs : ∀ c ∈ l, c ≠ '/') :
    baseRegion ⟨l⟩ = l := by
  unfold baseRegion
  have hdata : (⟨l⟩ : String).data = l := rfl
  rw [hdata]
  have hdts : dropTrailingSlashes l = l := by
    apply dropTrailingSlashes_id
    intro c hc
    exact hs c (List.mem_of_mem_getLast? hc)
  dsimp only
  rw [hdts, splitLastC_none '/' l hs]



theorem extname_eq (p : String) (B E : List Char)
    (hbr : baseRegion p = B ++ '.' :: E)
    (hB : B ≠ []) (hBd : ∀ c ∈ B, c ≠ '.') (hEd : ∀ c ∈ E, c ≠ '.') :
    extname p = ⟨'.' :: E⟩ := by
  unfold extname
  dsimp only
  rw [hbr]
  cases B with
  | nil => exact absurd rfl hB
  | cons b0 bs =>
    have hb0 : b0 ≠ '.' := hBd b0 (by simp)
    rw [if_neg ?hne]
    case hne =>
      intro hc
      rw [List.cons_append] at hc
      have : b0 = '.' := by
        have := congrArg (List.head? ·) hc
        simpa using this
      exact hb0 this
    rw [List.cons_append, show (b0 :: (bs ++ '.' :: E)) = (b0 :: bs) ++ '.' :: E from rfl,
      splitLastC_append '.' (b0 :: bs) E hEd]

theorem basenameExt_eq (p : String) (B E : List Char)
    (hbr : baseRegion p = B ++ '.' :: E) (hB : B ≠ []) :
    basenameExt p ⟨'.' :: E⟩ = ⟨B⟩ := by
  unfold basenameExt
  dsimp only
  rw [hbr]
  rw [if_pos ?hcond]
  case hcond =>
    refine ⟨by simp, ?_, ?_⟩
    · intro hc
      have := congrArg List.length hc
      simp at this
      exact hB this
    · rw [List.reverse_append, List.isPrefixOf_iff_prefix]
      exact List.prefix_append _ _
  congr 1
  have hlen : (B ++ '.' :: E).length - ('.' :: E).length = B.length := by
    simp
  rw [hlen, List.take_left]



theorem pnormalize_normal (l : List Char)
    (h : ∀ s ∈ csplit l, normalSeg s = true) :
    pnormalize ⟨l⟩ = ⟨l⟩ := by
  have hne : l ≠ [] := ne_nil_of_csplit_normal l h
  have hhead : l.head? ≠ some '/' := head_ne_slash_of_csplit_normal l h
  have hlast : ¬ (l.getLast? = some '/') := fun hc =>
    last_ne_slash_of_csplit_normal l h '/' hc rfl
  have hfil : (csplit l).filter (fun s => decide (s ≠ [])) = csplit l := by
    apply List.filter_eq_self.mpr
    intro s hs
    have hn := h s hs
    unfold normalSeg at hn
    rw [decide_eq_true_iff] at hn
    simp [hn.1]
  unfold pnormalize
  dsimp only
  rw [if_neg hne, hfil, normSegs_normal _ _ h, cjoin_csplit, if_neg hne,
    if_neg hhead, if_neg hlast]
  simp

theorem pjoin_two_normal (x y : String)
    (hx : ∀ s ∈ csplit x.data, normalSeg s = true)
    (hys : ∀ c ∈ y.data, c ≠ '/') (hyn : normalSeg y.data = true) :
    pjoin [x, y] = ⟨x.data ++ '/' :: y.data⟩ := by
  have hxne : x.data ≠ [] := ne_nil_of_csplit_normal x.data hx
  have hyne : y.data ≠ [] := by
    unfold normalSeg at hyn
    rw [decide_eq_true_iff] at hyn
    exact hyn.1
  unfold pjoin
  rw [show List.filter (fun s => decide (s.data ≠ [])) [x, y] = [x, y] by
    simp [List.filter_cons, hxne, hyne]]
  dsimp only
  rw [show slashIntercalate [x, y] = ⟨x.data ++ '/' :: y.data⟩ from rfl]
  apply pnormalize_normal
  rw [csplit_append, csplit_noslash y.data hys]
  intro s hs
  rcases List.mem_append.mp hs with h1 | h2
  · exact hx s h1
  · rw [List.mem_singleton.mp h2]
    exact hyn

theorem pjoin_dot_normal (y : String)
    (hys : ∀ c ∈ y.data, c ≠ '/') (hyn : normalSeg y.data = true) :
    pjoin [".", y] = y := by
  have hyne : y.data ≠ [] := by
    unfold normalSeg at hyn
    rw [decide_eq_true_iff] at hyn
    exact hyn.1
  unfold pjoin
  rw [show List.filter (fun s => decide (s.data ≠ [])) [".", y] = [".", y] by
    simp [List.filter_cons, hyne]]
  dsimp only
  rw [show slashIntercalate [".", y] = ⟨'.' :: '/' :: y.data⟩ from rfl]
  unfold pnormalize
  dsimp only
  rw [if_neg (by simp)]
  have hsplit : csplit ('.' :: '/' :: y.data) = ['.'] :: csplit y.data := by
    rw [show ('.' :: '/' :: y.data) = ['.'] ++ '/' :: y.data from rfl,
      csplit_append]
    rfl
  rw [hsplit, csplit_noslash y.data hys]
  have hfil : (['.'] :: [y.data]).filter (fun s => decide (s ≠ [])) = [['.'], y.data] := by
    simp [List.filter_cons, hyne]
  rw [show (['.'] : List Char) :: [y.data] = [['.'], y.data] from rfl] at hfil
  rw [hfil]
  have hns : ∀ ab, normSegs ab [['.'], y.data] = [y.data] := by
    intro ab
    unfold normSegs
    rw [List.foldl_cons]
    rw [show normStep ab [] ['.'] = [] from by unfold normStep; rw [if_pos rfl]]
    rw [List.foldl_cons, normStep_normal ab [] y.data hyn]
    rfl
  rw [hns]
  rw [show cjoin [y.data] = y.data from rfl]
  rw [if_neg hyne, if_neg (by simp), if_neg ?htrail]
  case htrail =>
    intro hc
    have : '/' ∈ y.data := by
      have h2 : ('.' :: '/' :: y.data).getLast? = y.data.getLast? := by
        rw [show ('.' :: '/' :: y.data) = ['.', '/'] ++ y.data from rfl,
          List.getLast?_append_of_ne_nil _ hyne]
      rw [h2] at hc
      exact List.mem_of_mem_getLast? hc
    exact hys '/' this rfl
  simp



/-- C8: for every well-formed relative input path with an extension —
`dir/b.e` with `dir` made of normalized segments and `b`, `e` free of
slashes and dots (and of backslashes, which the resolver would rewrite) —
the path-fallback resolver strips the extension and, if the remaining base
name equals `index`, returns the containing directory, otherwise the
directory joined with the base name; for a path without a directory the
containing directory is `"."`. -/
theorem resolve_strips_extension_spec (dir b e : String)
    (hdir : ∀ s ∈ csplit dir.data, normalSeg s = true)
    (hdirb : ∀ c ∈ dir.data, c ≠ '\\')
    (hb : b.data ≠ [] ∧ ∀ c ∈ b.data, c ≠ '/' ∧ c ≠ '.' ∧ c ≠ '\\')
    (he : e.data ≠ [] ∧ ∀ c ∈ e.data, c ≠ '/' ∧ c ≠ '.') :
    resolve (dir ++ "/" ++ b ++ "." ++ e)
        = (if b = "index" then dir else dir ++ "/" ++ b) ∧
    resolve (b ++ "." ++ e) = (if b = "index" then "." else b) := by
  have hbslash : ∀ c ∈ b.data, c ≠ '/' := fun c hc => (hb.2 c hc).1
  have hbdot : ∀ c ∈ b.data, c ≠ '.' := fun c hc => (hb.2 c hc).2.1
  have hbback : ∀ c ∈ b.data, c ≠ '\\' := fun c hc => (hb.2 c hc).2.2
  have heslash : ∀ c ∈ e.data, c ≠ '/' := fun c hc => (he.2 c hc).1
  have hedot : ∀ c ∈ e.data, c ≠ '.' := fun c hc => (he.2 c hc).2
  have hRs : ∀ c ∈ b.data ++ '.' :: e.data, c ≠ '/' := by
    intro c hc
    rcases List.mem_append.mp hc with h1 | h2
    · exact hbslash c h1
    · rcases List.mem_cons.mp h2 with h3 | h4
      · rw [h3]; decide
      · exact heslash c h4
  have hRne : b.data ++ '.' :: e.data ≠ [] := by simp
  have hbnorm : normalSeg b.data = true := by
    unfold normalSeg
    rw [decide_eq_true_iff]
    refine ⟨hb.1, ?_, ?_⟩
    · intro hc
      exact hbdot '.' (by rw [hc]; simp) rfl
    · intro hc
      exact hbdot '.' (by rw [hc]; simp) rfl
  have hdirne : dir.data ≠ [] := ne_nil_of_csplit_normal dir.data hdir
  have hdirh : dir.data.head? ≠ some '/' := head_ne_slash_of_csplit_normal dir.data hdir
  have hp1 : dir ++ "/" ++ b ++ "." ++ e = ⟨dir.data ++ '/' :: (b.data ++ '.' :: e.data)⟩ := by
    apply String.ext
    simp [String.data_append]
  have hp2 : b ++ "." ++ e = ⟨b.data ++ '.' :: e.data⟩ := by
    apply String.ext
    simp [String.data_append]
  constructor
  · rw [hp1]
    unfold resolve
    dsimp only
    have hbr := baseRegion_of_append dir.data (b.data ++ '.' :: e.data) hRne hRs
    rw [extname_eq _ b.data e.data hbr hb.1 hbdot hedot,
      basenameExt_eq _ b.data e.data hbr hb.1,
      dirname_of_append dir (b.data ++ '.' :: e.data) hdirne hdirh hRne hRs]
    have hbb : (⟨b.data⟩ : String) = b := rfl
    rw [hbb]
    by_cases hbi : b = "index"
    · rw [if_neg (by simp [hbi]), if_pos hbi]
    · rw [if_pos hbi, if_neg hbi]
      rw [pjoin_two_normal dir b hdir hbslash hbnorm]
      rw [backslashToSlash_id _ ?hnb]
      case hnb =>
        intro c hc
        rcases List.mem_append.mp hc with h1 | h2
        · exact hdirb c h1
        · rcases List.mem_cons.mp h2 with h3 | h4
          · rw [h3]; decide
          · exact hbback c h4
      apply String.ext
      simp [String.data_append]
  · rw [hp2]
    unfold resolve
    dsimp only
    have hbr := baseRegion_of_noslash (b.data ++ '.' :: e.data) hRs
    rw [extname_eq _ b.data e.data hbr hb.1 hbdot hedot,
      basenameExt_eq _ b.data e.data hbr hb.1,
      dirname_of_noslash (b.data ++ '.' :: e.data) hRne ?hh2 hRs]
    case hh2 =>
      intro hc
      cases hbd : b.data with
      | nil => exact hb.1 hbd
      | cons c cs =>
        rw [hbd] at hc
        have : c = '/' := by simpa using hc
        exact hbslash c (by rw [hbd]; simp) this
    have hbb : (⟨b.data⟩ : String) = b := rfl
    rw [hbb]
    by_cases hbi : b = "index"
    · rw [if_neg (by simp [hbi]), if_pos hbi]
    · rw [if_pos hbi, if_neg hbi]
      rw [pjoin_dot_normal b hbslash hbnorm]
      exact backslashToSlash_id b hbback

/-- Witness for C8: `about/index.html` resolves to `about`, and `c.html`
to `c`. -/
theorem resolve_strips_extension_spec_witness :
    resolve "about/index.html" = "about" ∧ resolve "c.html" = "c" := by
  have h := resolve_strips_extension_spec "about" "index" "html"
    (by decide) (by decide) (by decide) (by decide)
  constructor
  · have h1 := h.1
    rw [if_pos rfl] at h1
    exact h1
  · have h2 := (resolve_strips_extension_spec "x" "c" "html"
      (by decide) (by decide) (by decide) (by decide)).2
    rw [if_neg (by decide)] at h2
    exact h2

end Permalinks
